import Mathlib

/-!
# Periwinkle Auctions — bidding core, verified shallow embedding

Shallow embedding of the real-time bidding subsystem of the
`periwinkle-auctions` repository: bid admission (`validateBid`), the
anti-sniping end-time policy (`maybeExtendAuction`), the ledger update on an
accepted bid, the per-auction event emitter (`subscribe` / `emit` of
`BidEmitter`), and the route-protection middleware.

Monetary amounts are rationals (the source stores `Decimal(10,2)` / JS
numbers; bid increments include 0.5). Times are integers, in milliseconds
since the epoch, matching the source's `Date.getTime()` arithmetic.
-/

namespace Periwinkle

/-- Auction lifecycle status, from the Prisma schema and the spec's state
machine: DRAFT, SCHEDULED, ACTIVE, ENDED, SOLD, CANCELLED. -/
inductive AuctionStatus : Type
  | DRAFT
  | SCHEDULED
  | ACTIVE
  | ENDED
  | SOLD
  | CANCELLED
deriving DecidableEq, Repr

/-- The auction record, with the fields the bidding core reads and writes:
`sellerId`, `status`, the monetary fields, and the timing fields used by
`maybeExtendAuction` (`startTime`, `duration`, `endTime`), plus `winnerId`. -/
structure Auction : Type where
  sellerId : String
  status : AuctionStatus
  startingPrice : ℚ
  currentPrice : ℚ
  bidIncrement : ℚ
  startTime : ℤ
  duration : ℤ
  endTime : ℤ
  winnerId : Option String
deriving DecidableEq, Repr

/-- A bid record (immutable, append-only): bidder and amount. List position
in the ledger's bid list plays the role of `createdAt` order. -/
structure Bid : Type where
  bidderId : String
  amount : ℚ
deriving DecidableEq, Repr

/-- Admission-rejection reasons, from `BidError` in
`docs/features/BIDDING.md`; `TOO_LOW` carries the computed minimum bid as
its side payload. -/
inductive BidErrorReason : Type
  | AUTH_REQUIRED
  | OWN_AUCTION
  | NOT_ACTIVE
  | ENDED
  | TOO_LOW (minBid : ℚ)
deriving DecidableEq, Repr

/-- JavaScript truthiness of the `userId` argument: `!userId` holds when the
id is missing (`null`/`undefined`, here `none`) or the empty string. -/
def falsyUserId : Option String → Bool
  | none => true
  | some s => s = ""

/-- Bid admission, from `validateBid` in `docs/features/BIDDING.md`
(lines 126–142). The source throws on the first failing check; here the
first failing check's reason is returned, `none` meaning accepted. The
checks, in source order: authentication, own auction, active status,
deadline (`now > endTime`), minimum increment. -/
def validateBid (auction : Auction) (bidAmount : ℚ) (userId : Option String)
    (now : ℤ) : Option BidErrorReason :=
  if falsyUserId userId then some .AUTH_REQUIRED
  else if userId = some auction.sellerId then some .OWN_AUCTION
  else if auction.status ≠ .ACTIVE then some .NOT_ACTIVE
  else if now > auction.endTime then some .ENDED
  else
    let minBid := auction.currentPrice + auction.bidIncrement
    if bidAmount < minBid then some (.TOO_LOW minBid) else none

/-- Anti-sniping window before the end, from `ANTI_SNIPING.WINDOW_MS` in
`src/lib/constants.ts`: 2 minutes in milliseconds. -/
def WINDOW_MS : ℤ := 2 * 60 * 1000

/-- Extension step, from `ANTI_SNIPING.EXTENSION_MS` in
`src/lib/constants.ts`: 2 minutes in milliseconds. -/
def EXTENSION_MS : ℤ := 2 * 60 * 1000

/-- Maximum total extension, from `ANTI_SNIPING.MAX_EXTENSION_MS` in
`src/lib/constants.ts`: 30 minutes in milliseconds. -/
def MAX_EXTENSION_MS : ℤ := 30 * 60 * 1000

/-- The original end time the source recomputes inside `maybeExtendAuction`
as `auction.startTime.getTime() + auction.duration`. -/
def originalEndTime (a : Auction) : ℤ := a.startTime + a.duration

/-- Anti-sniping policy, from `maybeExtendAuction` in
`docs/features/BIDDING.md` (lines 150–165). The source reads `now` from the
clock; here it is a parameter. If less than two minutes remain, the new end
is `now + 2 minutes`, capped at `originalEnd + 30 minutes`; otherwise the
end time is returned unchanged. -/
def maybeExtendAuction (auction : Auction) (now : ℤ) : ℤ :=
  let timeLeft := auction.endTime - now
  let twoMinutes : ℤ := 2 * 60 * 1000
  let maxExtension : ℤ := 30 * 60 * 1000
  if timeLeft < twoMinutes then
    let originalEnd := originalEndTime auction
    let maxEnd := originalEnd + maxExtension
    let newEnd := now + twoMinutes
    if newEnd > maxEnd then maxEnd else newEnd
  else
    auction.endTime

/-- One bid request as it reaches the serialized section: the caller's
resolved user id (possibly missing), the offered amount, and the arrival
time `now` used by both admission and the anti-sniping policy. -/
structure BidAttempt : Type where
  userId : Option String
  amount : ℚ
  now : ℤ
deriving DecidableEq, Repr

/-- The `bid` SSE event payload, from `BidEvent` in `src/lib/format.ts`
(lines 190–202), restricted to the fields the replay fold reads: the bid
amount and the auction's resulting `currentPrice` and `endTime`. -/
structure BidEvent : Type where
  amount : ℚ
  newPrice : ℚ
  newEndTime : ℤ
deriving DecidableEq, Repr

/-- The in-memory ledger for one auction: the auction record plus its
append-only bid list in `createdAt` order. -/
structure LedgerState : Type where
  auction : Auction
  bids : List Bid
deriving DecidableEq, Repr

/-- Outcome of one serialized bid-processing step: the resulting ledger
state, the rejection reason when admission failed, and the events published
to the auction's subscribers by this step. -/
structure StepResult : Type where
  state : LedgerState
  rejected : Option BidErrorReason
  published : List BidEvent
deriving DecidableEq, Repr

/-- Modelled from the spec: the application of an accepted bid inside the
serialized section (the bid route that performs it is not among the source
files; `docs/features/BIDDING.md` and spec §4.2 describe it). On acceptance
`currentPrice := amount`, the winner candidate becomes the bidder, the end
time is recomputed by the anti-sniping policy, and the bid is appended. -/
def applyAcceptedBid (s : LedgerState) (u : String) (amount : ℚ) (now : ℤ) :
    LedgerState :=
  { auction :=
      { s.auction with
        currentPrice := amount
        winnerId := some u
        endTime := maybeExtendAuction s.auction now }
    bids := s.bids ++ [⟨u, amount⟩] }

/-- Modelled from the spec: one serialized bid-processing step (the bid
route is not among the source files). Admission (`validateBid`, verbatim
from the source) runs first; a rejection leaves the ledger untouched and
publishes nothing, an acceptance applies the bid and publishes one `bid`
event carrying the amount and the resulting price and end time. -/
def processBid (s : LedgerState) (att : BidAttempt) : StepResult :=
  match validateBid s.auction att.amount att.userId att.now with
  | some r => ⟨s, some r, []⟩
  | none =>
    let u := att.userId.getD ""
    let s2 := applyAcceptedBid s u att.amount att.now
    ⟨s2, none, [⟨att.amount, s2.auction.currentPrice, s2.auction.endTime⟩]⟩

/-- Ledger state after processing a sequence of bid attempts one at a time
through the serialized section. -/
def processAll (s : LedgerState) (atts : List BidAttempt) : LedgerState :=
  atts.foldl (fun st att => (processBid st att).state) s

/-- Ledger state together with the ordered event log produced by processing
a sequence of bid attempts. -/
def processAllEvents : LedgerState → List BidAttempt → LedgerState × List BidEvent
  | s, [] => (s, [])
  | s, att :: rest =>
    let r := processBid s att
    let p := processAllEvents r.state rest
    (p.1, r.published ++ p.2)

/-- The amounts of the accepted bids of a ledger, in application order. -/
def acceptedAmounts (s : LedgerState) : List ℚ := s.bids.map Bid.amount

/-- Modelled from the spec: the data model's `cumulativeExtension` field
(spec §3) is not stored by the source; the spec equates it with the total
extension granted so far, `endTime − originalEndTime`. -/
def cumulativeExtension (a : Auction) : ℤ := a.endTime - originalEndTime a

/-- The part of the ledger a subscriber can reconstruct from the event
stream: the auction's current price and end time. -/
structure LedgerView : Type where
  currentPrice : ℚ
  endTime : ℤ
deriving DecidableEq, Repr

/-- The view of a ledger state. -/
def view (s : LedgerState) : LedgerView :=
  ⟨s.auction.currentPrice, s.auction.endTime⟩

/-- Modelled from the spec: the deterministic replay fold (spec §8
round-trip property; the client hook in `docs/features/BIDDING.md` applies
events this way). Each `bid` event carries the resulting `currentPrice` and
`endTime`, which replay installs in order. -/
def replayEvent (_v : LedgerView) (e : BidEvent) : LedgerView :=
  ⟨e.newPrice, e.newEndTime⟩

/-! ## Event emitter

`BidEmitter` in `docs/features/BIDDING.md` (lines 244–267) keeps
`listeners : Map<string, Set<Listener>>`. A JS `Set` holds each listener at
most once and iterates in insertion order, so the whole emitter is embedded
as an insertion-ordered duplicate-free list of `(auctionId, listener)`
pairs; listeners are identified by `Nat` tags. -/

/-- The emitter's subscriber set: `(auctionId, listener)` pairs in
subscription order. -/
abbrev EmitterSubs : Type := List (String × Nat)

/-- `BidEmitter.subscribe`: adds the listener to the auction's set
(creating the entry when absent); adding an already-present listener is a
no-op, as for a JS `Set`. -/
def subscribe (subs : EmitterSubs) (auctionId : String) (l : Nat) :
    EmitterSubs :=
  if (auctionId, l) ∈ subs then subs else subs ++ [(auctionId, l)]

/-- The unsubscribe closure returned by `BidEmitter.subscribe`:
`this.listeners.get(auctionId)?.delete(listener)` — removes the pair when
present, and is a total no-op otherwise. -/
def unsubscribe (subs : EmitterSubs) (auctionId : String) (l : Nat) :
    EmitterSubs :=
  List.erase subs (auctionId, l)

/-- One emitter-state operation: a subscribe or an unsubscribe call. -/
inductive EmitterOp : Type
  | sub (auctionId : String) (l : Nat)
  | unsub (auctionId : String) (l : Nat)
deriving DecidableEq, Repr

/-- The emitter state reached by running a sequence of subscribe and
unsubscribe calls. -/
def runOps (ops : List EmitterOp) (subs : EmitterSubs) : EmitterSubs :=
  ops.foldl
    (fun s op =>
      match op with
      | .sub a l => subscribe s a l
      | .unsub a l => unsubscribe s a l)
    subs

/-- The listeners `BidEmitter.emit(auctionId, …)` invokes, in iteration
order: the members of the auction's set
(`this.listeners.get(auctionId)?.forEach(...)`). -/
def invokedListeners (subs : EmitterSubs) (auctionId : String) : List Nat :=
  (subs.filter (fun p => p.1 = auctionId)).map Prod.snd

/-- The log a fixed listener accumulates while a sequence of publishes
`(auctionId, event)` runs against a fixed subscriber set: each `emit`
synchronously calls every invoked listener with the event. -/
def observed {α : Type} (subs : EmitterSubs) (pubs : List (String × α))
    (l : Nat) : List α :=
  pubs.foldl
    (fun log pub =>
      if l ∈ invokedListeners subs pub.1 then log ++ [pub.2] else log)
    []

/-! ## Middleware

Route protection, from `src/middleware.ts`. The source consults
`auth()` for a session whose `user` may be absent; `!session?.user`
collapses both absences, so the session is embedded as an optional user. -/

/-- The authenticated user the middleware reads: `session.user`, with its
`role`. -/
structure SessionUser : Type where
  id : String
  role : String
deriving DecidableEq, Repr

/-- JavaScript `String.prototype.startsWith`, as the source uses it on
pathnames: the route is a prefix of the pathname's character sequence. -/
def startsWith (pathname route : String) : Bool :=
  List.isPrefixOf route.data pathname.data

/-- `protectedRoutes` from `src/middleware.ts`. -/
def protectedRoutes : List String := ["/dashboard", "/auctions/create"]

/-- `adminRoutes` from `src/middleware.ts`. -/
def adminRoutes : List String := ["/admin"]

/-- The middleware's possible responses: pass the request through
(`NextResponse.next()`), or redirect to a URL, recording the `callbackUrl`
query parameter when the source sets one. -/
inductive MwResponse : Type
  | next
  | redirect (url : String) (callbackUrl : Option String)
deriving DecidableEq, Repr

/-- The `middleware` function of `src/middleware.ts` (lines 17–46): on a
protected or admin pathname, an unauthenticated request is redirected to
`/login` with `callbackUrl` set to the pathname; an authenticated non-ADMIN
request on an admin pathname is redirected to `/`; every other request
passes through. -/
def middleware (pathname : String) (session : Option SessionUser) :
    MwResponse :=
  let isProtectedRoute := protectedRoutes.any (fun r => startsWith pathname r)
  let isAdminRoute := adminRoutes.any (fun r => startsWith pathname r)
  if isProtectedRoute || isAdminRoute then
    match session with
    | none => .redirect "/login" (some pathname)
    | some user =>
      if isAdminRoute && user.role ≠ "ADMIN" then .redirect "/" none
      else .next
  else
    .next

/-! ## Concrete fixtures used by witnesses and counterexamples -/

/-- A live auction: `currentPrice = 100`, `bidIncrement = 5`, published with
a one-hour duration and not yet extended. -/
def auction1 : Auction :=
  { sellerId := "alice"
    status := .ACTIVE
    startingPrice := 100
    currentPrice := 100
    bidIncrement := 5
    startTime := 0
    duration := 3600000
    endTime := 3600000
    winnerId := none }

/-- An auction whose `endTime` already lies past
`originalEndTime + MAX_EXTENSION_MS` (original end 0, cap 1800000, end time
1800001). -/
def overExtendedAuction : Auction :=
  { sellerId := "seller-1"
    status := .ACTIVE
    startingPrice := 0
    currentPrice := 0
    bidIncrement := 1
    startTime := 0
    duration := 0
    endTime := 1800001
    winnerId := none }

/-- The price/bid-list invariant the serialized step maintains: accepted
amounts are strictly increasing in application order, every accepted amount
is at most the current price, the latest accepted amount equals the current
price, and the current price is at least the starting price. -/
def priceInv (s : LedgerState) : Prop :=
  List.Chain' (· < ·) (acceptedAmounts s) ∧
  (∀ b ∈ s.bids, b.amount ≤ s.auction.currentPrice) ∧
  (∀ b, s.bids.getLast? = some b → s.auction.currentPrice = b.amount) ∧
  s.auction.startingPrice ≤ s.auction.currentPrice
/-- The timing invariant: the end time lies between the original end time
and the original end time plus the extension cap. -/
def timeInv (s : LedgerState) : Prop :=
  originalEndTime s.auction ≤ s.auction.endTime ∧
  s.auction.endTime ≤ originalEndTime s.auction + MAX_EXTENSION_MS
/-- Three concrete bid attempts against `auction1`: 105 (accepted), 103
(too low against the new price), 111 (accepted). -/
def atts1 : List BidAttempt :=
  [⟨some "bob", 105, 0⟩, ⟨some "carol", 103, 1⟩, ⟨some "dan", 111, 2⟩]
/-- Concrete subscription script: listener 0 on auction `a1`, listener 1 on
auction `a2`. -/
def ops1 : List EmitterOp := [.sub "a1" 0, .sub "a2" 1]

/-! ## C1 — admission checks, in order -/

/-- C1: `validateBid` evaluates exactly the five checks in source order and
returns the reason of the first that fails — missing/unresolvable bidder
gives `AUTH_REQUIRED`; bidder equal to the seller gives `OWN_AUCTION`;
non-`ACTIVE` status gives `NOT_ACTIVE`; `now > endTime` gives `ENDED`;
`amount < currentPrice + bidIncrement` gives `TOO_LOW` carrying
`minBid = currentPrice + bidIncrement`; otherwise the bid is accepted. In
particular with `currentPrice = 100` and `bidIncrement = 5`, a bid of 103
is rejected `TOO_LOW (minBid = 105)` and a bid of 105 is accepted, after
which `currentPrice = 105`. -/
theorem validateBid_checks_in_order (a : Auction) (amount : ℚ)
    (userId : Option String) (now : ℤ) :
    (falsyUserId userId = true →
      validateBid a amount userId now = some .AUTH_REQUIRED) ∧
    (falsyUserId userId = false → userId = some a.sellerId →
      validateBid a amount userId now = some .OWN_AUCTION) ∧
    (falsyUserId userId = false → userId ≠ some a.sellerId →
      a.status ≠ .ACTIVE →
      validateBid a amount userId now = some .NOT_ACTIVE) ∧
    (falsyUserId userId = false → userId ≠ some a.sellerId →
      a.status = .ACTIVE → a.endTime < now →
      validateBid a amount userId now = some .ENDED) ∧
    (falsyUserId userId = false → userId ≠ some a.sellerId →
      a.status = .ACTIVE → now ≤ a.endTime →
      amount < a.currentPrice + a.bidIncrement →
      validateBid a amount userId now =
        some (.TOO_LOW (a.currentPrice + a.bidIncrement))) ∧
    (falsyUserId userId = false → userId ≠ some a.sellerId →
      a.status = .ACTIVE → now ≤ a.endTime →
      a.currentPrice + a.bidIncrement ≤ amount →
      validateBid a amount userId now = none) ∧
    (falsyUserId userId = false → userId ≠ some a.sellerId →
      a.status = .ACTIVE → now ≤ a.endTime →
      a.currentPrice = 100 → a.bidIncrement = 5 →
      validateBid a 103 userId now = some (.TOO_LOW 105) ∧
      validateBid a 105 userId now = none ∧
      ∀ bids : List Bid,
        (processBid ⟨a, bids⟩ ⟨userId, 105, now⟩).state.auction.currentPrice
          = 105) := by
  refine ⟨?_, ?_, ?_, ?_, ?_, ?_, ?_⟩
  · intro h
    simp [validateBid, h]
  · intro h h2
    subst h2
    simp [validateBid, h]
  · intro h h2 h3
    simp [validateBid, h, h2, h3]
  · intro h h2 h3 h4
    simp [validateBid, h, h2, h3, h4]
  · intro h h2 h3 h4 h5
    simp [validateBid, h, h2, h3, not_lt_of_ge h4, h5]
  · intro h h2 h3 h4 h5
    simp [validateBid, h, h2, h3, not_lt_of_ge h4, not_lt_of_ge h5]
  · intro h h2 h3 h4 hp hi
    refine ⟨?_, ?_, ?_⟩
    · simp [validateBid, h, h2, h3, not_lt_of_ge h4, hp, hi]
      norm_num
    · simp [validateBid, h, h2, h3, not_lt_of_ge h4, hp, hi]
      norm_num
    · intro bids
      simp [processBid, validateBid, h, h2, h3, not_lt_of_ge h4, hp, hi,
        applyAcceptedBid]
      norm_num

/-- Witness for C1 at a concrete live auction: the bid of 103 is rejected
`TOO_LOW (105)`, the bid of 105 is accepted and sets the price to 105. -/
theorem validateBid_checks_in_order_witness :
    validateBid auction1 103 (some "bob") 0 = some (.TOO_LOW 105) ∧
    validateBid auction1 105 (some "bob") 0 = none ∧
    (processBid ⟨auction1, []⟩ ⟨some "bob", 105, 0⟩).state.auction.currentPrice
      = 105 := by
  have h :=
    (validateBid_checks_in_order auction1 103 (some "bob") 0).2.2.2.2.2.2
      (by decide) (by decide) (by decide) (by decide) (by decide) (by decide)
  exact ⟨h.1, h.2.1, h.2.2 []⟩

/-! ## C3 — anti-sniping policy -/

/-- C3: with window, step and cap as in `ANTI_SNIPING`, `maybeExtendAuction`
returns `endTime` unchanged when `endTime − now ≥ window`, and otherwise
returns `min (now + step) (originalEndTime + cap)`. -/
theorem maybeExtendAuction_spec (a : Auction) (now : ℤ) :
    (WINDOW_MS ≤ a.endTime - now → maybeExtendAuction a now = a.endTime) ∧
    (a.endTime - now < WINDOW_MS →
      maybeExtendAuction a now =
        min (now + EXTENSION_MS) (originalEndTime a + MAX_EXTENSION_MS)) := by
  constructor
  · intro h
    rw [WINDOW_MS] at h
    simp only [maybeExtendAuction]
    rw [if_neg (by omega)]
  · intro h
    rw [WINDOW_MS] at h
    simp only [maybeExtendAuction, EXTENSION_MS, MAX_EXTENSION_MS]
    rw [if_pos (by omega)]
    omega

/-- Witness for C3: outside the window the end time is unchanged; inside the
window (1 second left) it becomes `now + 2 minutes`. -/
theorem maybeExtendAuction_spec_witness :
    maybeExtendAuction auction1 0 = 3600000 ∧
    maybeExtendAuction auction1 3599000 = 3719000 := by
  constructor
  · exact (maybeExtendAuction_spec auction1 0).1 (by decide)
  · have h := (maybeExtendAuction_spec auction1 3599000).2 (by decide)
    simpa [EXTENSION_MS, MAX_EXTENSION_MS, originalEndTime, auction1] using h

/-! ## C4 — the policy alone can shrink an over-extended end time -/

/-- C4 counterexample: for the concrete auction whose `endTime` (1800001)
already exceeds `originalEndTime + cap` (1800000), a call inside the window
at `now = 1800002` returns 1800000, strictly below the current `endTime`,
so the claim's universally quantified "never decreases" fails. -/
theorem maybeExtendAuction_can_shrink :
    maybeExtendAuction overExtendedAuction 1800002 <
      overExtendedAuction.endTime := by decide

/-- C4 amended: for every auction whose end time does not already exceed
`originalEndTime + MAX_EXTENSION_MS` (which holds in every reachable state),
and every `now` — including `now` past `originalEndTime + cap` — the
returned end time is at least `auction.endTime`. -/
theorem maybeExtendAuction_monotone (a : Auction) (now : ℤ)
    (h : a.endTime ≤ originalEndTime a + MAX_EXTENSION_MS) :
    a.endTime ≤ maybeExtendAuction a now := by
  rw [MAX_EXTENSION_MS] at h
  simp only [maybeExtendAuction]
  split_ifs <;> omega

/-- Witness for the amended C4, with `now` (5400001) past
`originalEndTime + cap` (5400000). -/
theorem maybeExtendAuction_monotone_witness :
    auction1.endTime ≤ maybeExtendAuction auction1 5400001 :=
  maybeExtendAuction_monotone auction1 5400001 (by decide)

/-! ## C2 — strictly increasing accepted amounts -/


/-- An accepted bid passed the minimum-increment check. -/
theorem validateBid_none_min (a : Auction) (amount : ℚ)
    (userId : Option String) (now : ℤ)
    (h : validateBid a amount userId now = none) :
    a.currentPrice + a.bidIncrement ≤ amount := by
  simp only [validateBid] at h
  split_ifs at h with h1 h2 h3 h4 h5
  any_goals simp at h
  exact not_lt.mp h5

/-- One serialized step preserves `priceInv`, never lowers the current
price, and leaves the static auction fields unchanged. -/
theorem processBid_priceInv (s : LedgerState) (att : BidAttempt)
    (hinc : 0 < s.auction.bidIncrement) (hinv : priceInv s) :
    priceInv (processBid s att).state ∧
    s.auction.currentPrice ≤ (processBid s att).state.auction.currentPrice ∧
    (processBid s att).state.auction.bidIncrement = s.auction.bidIncrement ∧
    (processBid s att).state.auction.startingPrice
      = s.auction.startingPrice := by
  obtain ⟨hch, hub, hlast, hsp⟩ := hinv
  cases hv : validateBid s.auction att.amount att.userId att.now with
  | some r =>
    have hstate : (processBid s att).state = s := by simp [processBid, hv]
    rw [hstate]
    exact ⟨⟨hch, hub, hlast, hsp⟩, le_refl _, rfl, rfl⟩
  | none =>
    have hmin := validateBid_none_min _ _ _ _ hv
    have hlt : s.auction.currentPrice < att.amount := by linarith
    have hstate : (processBid s att).state =
        applyAcceptedBid s (att.userId.getD "") att.amount att.now := by
      simp [processBid, hv]
    rw [hstate]
    simp only [applyAcceptedBid, priceInv, acceptedAmounts]
    refine ⟨⟨?_, ?_, ?_, ?_⟩, le_of_lt hlt, trivial, trivial⟩
    · rw [List.map_append, List.chain'_append]
      refine ⟨hch, by simp, ?_⟩
      intro x hx y hy
      simp only [List.map_cons, List.map_nil, List.head?_cons,
        Option.mem_def, Option.some.injEq] at hy
      rw [List.getLast?_map, Option.mem_def] at hx
      cases hg : s.bids.getLast? with
      | none => rw [hg] at hx; simp at hx
      | some b =>
        rw [hg] at hx
        simp only [Option.map_some', Option.some.injEq] at hx
        rw [← hx, ← hy, ← hlast b hg]
        exact hlt
    · intro b hb
      rcases List.mem_append.mp hb with hb1 | hb2
      · exact le_of_lt (lt_of_le_of_lt (hub b hb1) hlt)
      · simp only [List.mem_singleton] at hb2
        rw [hb2]
    · intro b hb
      rw [List.getLast?_concat] at hb
      cases hb
      rfl
    · exact le_of_lt (lt_of_le_of_lt hsp hlt)

/-- `processAll` on a cons is one step followed by the rest. -/
theorem processAll_cons (s : LedgerState) (att : BidAttempt)
    (rest : List BidAttempt) :
    processAll s (att :: rest) = processAll (processBid s att).state rest :=
  rfl

/-- `processAll` over an appended sequence processes the suffix from the
prefix's final state. -/
theorem processAll_append (s : LedgerState) (atts extra : List BidAttempt) :
    processAll s (atts ++ extra) = processAll (processAll s atts) extra :=
  List.foldl_append _ _ _ _

/-- `priceInv` is preserved along any attempt sequence, the current price
never drops, and the static fields persist. -/
theorem processAll_priceInv (s : LedgerState) (atts : List BidAttempt)
    (hinc : 0 < s.auction.bidIncrement) (hinv : priceInv s) :
    priceInv (processAll s atts) ∧
    s.auction.currentPrice ≤ (processAll s atts).auction.currentPrice ∧
    (processAll s atts).auction.bidIncrement = s.auction.bidIncrement ∧
    (processAll s atts).auction.startingPrice = s.auction.startingPrice := by
  induction atts generalizing s with
  | nil => exact ⟨hinv, le_refl _, rfl, rfl⟩
  | cons att rest ih =>
    obtain ⟨hstep, hle, hbi, hstp⟩ := processBid_priceInv s att hinc hinv
    obtain ⟨h1, h2, h3, h4⟩ :=
      ih (processBid s att).state (by rw [hbi]; exact hinc) hstep
    rw [processAll_cons]
    exact ⟨h1, le_trans hle h2, by rw [h3, hbi], by rw [h4, hstp]⟩

/-- C2: starting from a fresh auction with a positive bid increment,
processing any sequence of bids one at a time through admission and
application leaves the accepted amounts strictly increasing in application
order; the current price equals the latest accepted bid's amount; the
current price stays at least the starting price; and the current price is
non-decreasing as further attempts are processed. -/
theorem accepted_bids_strictly_increase (a : Auction)
    (hinc : 0 < a.bidIncrement) (hfresh : a.currentPrice = a.startingPrice)
    (atts extra : List BidAttempt) :
    List.Pairwise (· < ·) (acceptedAmounts (processAll ⟨a, []⟩ atts)) ∧
    (∀ b, (processAll ⟨a, []⟩ atts).bids.getLast? = some b →
      (processAll ⟨a, []⟩ atts).auction.currentPrice = b.amount) ∧
    a.startingPrice ≤ (processAll ⟨a, []⟩ atts).auction.currentPrice ∧
    (processAll ⟨a, []⟩ atts).auction.currentPrice ≤
      (processAll ⟨a, []⟩ (atts ++ extra)).auction.currentPrice := by
  have hinv0 : priceInv ⟨a, []⟩ := by
    refine ⟨?_, ?_, ?_, le_of_eq hfresh.symm⟩ <;> simp [acceptedAmounts]
  obtain ⟨hinv, hle, hbi, hstp⟩ := processAll_priceInv ⟨a, []⟩ atts hinc hinv0
  refine ⟨List.chain'_iff_pairwise.mp hinv.1, hinv.2.2.1, ?_, ?_⟩
  · calc a.startingPrice = a.currentPrice := hfresh.symm
      _ ≤ _ := hle
  · rw [processAll_append]
    exact (processAll_priceInv (processAll ⟨a, []⟩ atts) extra
      (by rw [hbi]; exact hinc) hinv).2.1


/-- Witness for C2 on `auction1` and the attempts `atts1`. -/
theorem accepted_bids_strictly_increase_witness :
    List.Pairwise (· < ·) (acceptedAmounts (processAll ⟨auction1, []⟩ atts1)) ∧
    auction1.startingPrice ≤
      (processAll ⟨auction1, []⟩ atts1).auction.currentPrice := by
  have h := accepted_bids_strictly_increase auction1 (by norm_num [auction1])
    (by rfl) atts1 []
  exact ⟨h.1, h.2.2.1⟩

/-! ## C5 — bounded extension -/


/-- Within the timing invariant, the anti-sniping policy keeps the end time
inside the same band. -/
theorem maybeExtendAuction_bounds (a : Auction)
    (h1 : originalEndTime a ≤ a.endTime)
    (h2 : a.endTime ≤ originalEndTime a + MAX_EXTENSION_MS) (now : ℤ) :
    originalEndTime a ≤ maybeExtendAuction a now ∧
    maybeExtendAuction a now ≤ originalEndTime a + MAX_EXTENSION_MS := by
  rw [MAX_EXTENSION_MS] at h2 ⊢
  simp only [maybeExtendAuction]
  split_ifs <;> omega

/-- One serialized step preserves the timing invariant. -/
theorem processBid_timeInv (s : LedgerState) (att : BidAttempt)
    (hinv : timeInv s) : timeInv (processBid s att).state := by
  cases hv : validateBid s.auction att.amount att.userId att.now with
  | some r => simpa [processBid, hv] using hinv
  | none =>
    obtain ⟨hb1, hb2⟩ := maybeExtendAuction_bounds s.auction hinv.1 hinv.2 att.now
    simp only [processBid, hv, applyAcceptedBid, timeInv, originalEndTime] at *
    exact ⟨hb1, hb2⟩

/-- The timing invariant is preserved along any attempt sequence. -/
theorem processAll_timeInv (s : LedgerState) (atts : List BidAttempt)
    (hinv : timeInv s) : timeInv (processAll s atts) := by
  induction atts generalizing s with
  | nil => exact hinv
  | cons att rest ih =>
    rw [processAll_cons]
    exact ih _ (processBid_timeInv s att hinv)

/-- C5: from a freshly published auction (`endTime = originalEndTime`),
after any sequence of processed bids the reached state satisfies
`endTime ≥ originalEndTime`, `endTime − originalEndTime` equals the
cumulative extension, and the cumulative extension is at most
`MAX_EXTENSION_MS` (30 minutes). -/
theorem bounded_extension_invariant (a : Auction)
    (hpub : a.endTime = originalEndTime a) (atts : List BidAttempt) :
    originalEndTime (processAll ⟨a, []⟩ atts).auction ≤
      (processAll ⟨a, []⟩ atts).auction.endTime ∧
    (processAll ⟨a, []⟩ atts).auction.endTime -
        originalEndTime (processAll ⟨a, []⟩ atts).auction =
      cumulativeExtension (processAll ⟨a, []⟩ atts).auction ∧
    cumulativeExtension (processAll ⟨a, []⟩ atts).auction
      ≤ MAX_EXTENSION_MS := by
  have hinv0 : timeInv ⟨a, []⟩ := by
    constructor
    · show originalEndTime a ≤ a.endTime
      exact le_of_eq hpub.symm
    · show a.endTime ≤ originalEndTime a + MAX_EXTENSION_MS
      rw [hpub, MAX_EXTENSION_MS]
      omega
  obtain ⟨h1, h2⟩ := processAll_timeInv ⟨a, []⟩ atts hinv0
  refine ⟨h1, rfl, ?_⟩
  rw [cumulativeExtension]
  omega

/-- Witness for C5 on `auction1` (freshly published: end time 3600000 equals
`startTime + duration`) and the attempts `atts1`. -/
theorem bounded_extension_invariant_witness :
    cumulativeExtension (processAll ⟨auction1, []⟩ atts1).auction
      ≤ MAX_EXTENSION_MS :=
  (bounded_extension_invariant auction1 (by rfl) atts1).2.2

/-! ## C6 — rejection has no side effects -/

/-- C6: when admission rejects a bid for any reason, the ledger state —
every auction field and the bid list — is exactly the state before the
attempt, and no event is published; and a seller bidding on their own
auction is rejected with `OWN_AUCTION`. -/
theorem rejection_no_side_effects (s : LedgerState) (att : BidAttempt) :
    (∀ r, (processBid s att).rejected = some r →
      (processBid s att).state = s ∧ (processBid s att).published = []) ∧
    (att.userId = some s.auction.sellerId → s.auction.sellerId ≠ "" →
      (processBid s att).rejected = some .OWN_AUCTION) := by
  constructor
  · intro r hr
    cases hv : validateBid s.auction att.amount att.userId att.now with
    | some r2 => simp [processBid, hv]
    | none => simp [processBid, hv] at hr
  · intro hu hs
    have hf : falsyUserId (some s.auction.sellerId) = false := by
      simp [falsyUserId, hs]
    simp [processBid, validateBid, hu, hf]

/-- Witness for C6: the seller of `auction1` bids 200 on it; the attempt is
rejected `OWN_AUCTION`, the ledger is unchanged and nothing is published. -/
theorem rejection_no_side_effects_witness :
    (processBid ⟨auction1, []⟩ ⟨some "alice", 200, 0⟩).rejected
        = some .OWN_AUCTION ∧
    (processBid ⟨auction1, []⟩ ⟨some "alice", 200, 0⟩).state = ⟨auction1, []⟩ ∧
    (processBid ⟨auction1, []⟩ ⟨some "alice", 200, 0⟩).published = [] := by
  have h := rejection_no_side_effects ⟨auction1, []⟩ ⟨some "alice", 200, 0⟩
  have hr := h.2 (by rfl) (by decide)
  exact ⟨hr, (h.1 _ hr).1, (h.1 _ hr).2⟩

/-! ## C8 — event-log replay round-trip -/

/-- C8: for every initial ledger state and sequence of bid attempts,
deterministically folding the ordered event log over the initial state's
view reproduces the final state's view (its current price and end time). -/
theorem replay_reproduces_ledger (s : LedgerState) (atts : List BidAttempt) :
    ((processAllEvents s atts).2).foldl replayEvent (view s) =
      view (processAllEvents s atts).1 := by
  induction atts generalizing s with
  | nil => rfl
  | cons att rest ih =>
    cases hv : validateBid s.auction att.amount att.userId att.now with
    | some r =>
      have h1 : processBid s att = ⟨s, some r, []⟩ := by simp [processBid, hv]
      simp only [processAllEvents, h1, List.nil_append]
      exact ih s
    | none =>
      have h1 : processBid s att =
          ⟨applyAcceptedBid s (att.userId.getD "") att.amount att.now, none,
            [⟨att.amount,
              (applyAcceptedBid s (att.userId.getD "")
                att.amount att.now).auction.currentPrice,
              (applyAcceptedBid s (att.userId.getD "")
                att.amount att.now).auction.endTime⟩]⟩ := by
        simp [processBid, hv]
      simp only [processAllEvents, h1, List.singleton_append, List.foldl_cons]
      exact ih _

/-! ## C7 — per-auction ordered fan-out -/

/-- `runOps` on a cons performs the operation first. -/
theorem runOps_cons (op : EmitterOp) (rest : List EmitterOp)
    (subs : EmitterSubs) :
    runOps (op :: rest) subs =
      runOps rest
        (match op with
         | .sub a l => subscribe subs a l
         | .unsub a l => unsubscribe subs a l) := rfl

/-- Every emitter state reachable from the empty emitter by subscribes and
unsubscribes is duplicate-free, like the JS `Set`s it embeds. -/
theorem runOps_nodup (ops : List EmitterOp) (subs : EmitterSubs)
    (h : subs.Nodup) : (runOps ops subs).Nodup := by
  induction ops generalizing subs with
  | nil => exact h
  | cons op rest ih =>
    rw [runOps_cons]
    cases op with
    | sub a l =>
      refine ih _ ?_
      by_cases hm : (a, l) ∈ subs
      · simpa [subscribe, hm] using h
      · simp [subscribe, hm, List.nodup_append, h]
    | unsub a l =>
      exact ih _ (h.erase _)

/-- Against a fixed subscriber set, a listener invoked for `auctionId`
accumulates exactly the published payloads, in publish order, on top of any
prior log. -/
theorem observed_ordered {α : Type} (subs : EmitterSubs) (l : Nat)
    (auctionId : String) (hmem : l ∈ invokedListeners subs auctionId) :
    ∀ pubs : List (String × α), (∀ p ∈ pubs, p.1 = auctionId) →
      ∀ acc : List α,
        pubs.foldl
          (fun log pub =>
            if l ∈ invokedListeners subs pub.1 then log ++ [pub.2] else log)
          acc = acc ++ pubs.map Prod.snd := by
  intro pubs
  induction pubs with
  | nil =>
    intro _ acc
    simp
  | cons p rest ih =>
    intro hall acc
    have hp : p.1 = auctionId := hall p (List.mem_cons_self _ _)
    rw [List.foldl_cons, hp, if_pos hmem,
      ih (fun q hq => hall q (List.mem_cons_of_mem _ hq))]
    simp

/-- C7: in every emitter state reachable from the empty emitter, an `emit`
for an auction invokes exactly the listeners currently subscribed to that
auction, once each (the invoked list is duplicate-free and a listener is
invoked iff it holds a subscription to that auction); and a subscriber
present throughout a sequence of publishes all addressed to its auction
observes exactly the published events, in publish order. -/
theorem emit_ordered_fanout {α : Type} (ops : List EmitterOp)
    (auctionId : String) (l : Nat) (pubs : List (String × α)) :
    (invokedListeners (runOps ops []) auctionId).Nodup ∧
    (l ∈ invokedListeners (runOps ops []) auctionId ↔
      (auctionId, l) ∈ runOps ops []) ∧
    ((∀ p ∈ pubs, p.1 = auctionId) → (auctionId, l) ∈ runOps ops [] →
      observed (runOps ops []) pubs l = pubs.map Prod.snd) := by
  have hnd : (runOps ops []).Nodup := runOps_nodup ops [] List.nodup_nil
  have hmem_iff : l ∈ invokedListeners (runOps ops []) auctionId ↔
      (auctionId, l) ∈ runOps ops [] := by
    constructor
    · intro hx
      simp only [invokedListeners, List.mem_map, List.mem_filter,
        decide_eq_true_eq] at hx
      obtain ⟨x, ⟨hx1, hx2⟩, hx3⟩ := hx
      have : x = (auctionId, l) := Prod.ext hx2 hx3
      rw [← this]
      exact hx1
    · intro hx
      simp only [invokedListeners, List.mem_map, List.mem_filter,
        decide_eq_true_eq]
      exact ⟨(auctionId, l), ⟨hx, rfl⟩, rfl⟩
  refine ⟨?_, hmem_iff, ?_⟩
  · refine List.Nodup.map_on ?_ (hnd.filter _)
    intro x hx y hy hxy
    simp only [List.mem_filter, decide_eq_true_eq] at hx hy
    exact Prod.ext (hx.2.trans hy.2.symm) hxy
  · intro hall hsub
    exact observed_ordered (runOps ops []) l auctionId (hmem_iff.mpr hsub)
      pubs hall []


/-- Witness for C7: after `ops1`, an emit for `a1` invokes exactly listener
0, and publishing 10 then 20 to `a1` is observed by listener 0 as
`[10, 20]`. -/
theorem emit_ordered_fanout_witness :
    observed (runOps ops1 []) [("a1", (10 : Nat)), ("a1", 20)] 0
      = [10, 20] := by
  have h := (emit_ordered_fanout ops1 "a1" 0
    [("a1", (10 : Nat)), ("a1", 20)]).2.2 (by decide) (by decide)
  simpa using h

/-! ## C9 — idempotent unsubscribe -/

/-- C9: in every emitter state reachable from the empty emitter, calling the
unsubscribe handle a second time leaves the subscriber set exactly as one
call does (the total embedding also makes the repeated call a non-throwing
no-op on an already-removed listener). -/
theorem unsubscribe_idempotent (ops : List EmitterOp) (auctionId : String)
    (l : Nat) :
    unsubscribe (unsubscribe (runOps ops []) auctionId l) auctionId l =
      unsubscribe (runOps ops []) auctionId l := by
  have hnd : (runOps ops []).Nodup := runOps_nodup ops [] List.nodup_nil
  have hnm : (auctionId, l) ∉ (runOps ops []).erase (auctionId, l) := by
    intro hmem
    exact (hnd.mem_erase_iff.mp hmem).1 rfl
  exact List.erase_of_not_mem hnm

/-! ## C10 — middleware route protection -/

/-- C10: for a pathname starting with `/dashboard`, `/auctions/create` or
`/admin`, an unauthenticated request is redirected to `/login` with
`callbackUrl` set to the pathname, an authenticated request on an `/admin`
pathname with a non-`ADMIN` role is redirected to `/`, and every other
request — including all pathnames matching none of the prefixes — passes
through with `next`. -/
theorem middleware_route_protection (pathname : String)
    (session : Option SessionUser) :
    ((startsWith pathname "/dashboard" = true ∨
      startsWith pathname "/auctions/create" = true ∨
      startsWith pathname "/admin" = true) →
      ((session = none →
        middleware pathname session = .redirect "/login" (some pathname)) ∧
       (∀ u, session = some u → startsWith pathname "/admin" = true →
        u.role ≠ "ADMIN" →
        middleware pathname session = .redirect "/" none) ∧
       (∀ u, session = some u →
        (startsWith pathname "/admin" = false ∨ u.role = "ADMIN") →
        middleware pathname session = .next))) ∧
    (startsWith pathname "/dashboard" = false →
      startsWith pathname "/auctions/create" = false →
      startsWith pathname "/admin" = false →
      middleware pathname session = .next) := by
  constructor
  · intro hguard
    refine ⟨?_, ?_, ?_⟩
    · intro hs
      subst hs
      rcases hguard with h | h | h <;>
        simp [middleware, protectedRoutes, adminRoutes, h]
    · intro u hu ha hr
      subst hu
      simp [middleware, protectedRoutes, adminRoutes, ha, hr]
    · intro u hu hcase
      subst hu
      rcases hcase with ha | hr
      · cases hd : startsWith pathname "/dashboard" <;>
          cases hc : startsWith pathname "/auctions/create" <;>
            simp [middleware, protectedRoutes, adminRoutes, ha, hd, hc]
      · cases hd : startsWith pathname "/dashboard" <;>
          cases hc : startsWith pathname "/auctions/create" <;>
            cases ha : startsWith pathname "/admin" <;>
              simp [middleware, protectedRoutes, adminRoutes, hd, hc, ha, hr]
  · intro h1 h2 h3
    simp [middleware, protectedRoutes, adminRoutes, h1, h2, h3]

/-- Witness for C10: an unauthenticated request for `/admin/panel` is
redirected to `/login` with the pathname as callback; an authenticated
non-admin on `/admin/panel` is redirected to `/`; an authenticated user on
`/other` passes through. -/
theorem middleware_route_protection_witness :
    middleware "/admin/panel" none = .redirect "/login" (some "/admin/panel") ∧
    middleware "/admin/panel" (some ⟨"u1", "USER"⟩) = .redirect "/" none ∧
    middleware "/other" (some ⟨"u1", "USER"⟩) = .next := by
  refine ⟨?_, ?_, ?_⟩
  · exact ((middleware_route_protection "/admin/panel" none).1
      (Or.inr (Or.inr (by decide)))).1 rfl
  · exact ((middleware_route_protection "/admin/panel"
      (some ⟨"u1", "USER"⟩)).1 (Or.inr (Or.inr (by decide)))).2.1
      ⟨"u1", "USER"⟩ rfl (by decide) (by decide)
  · exact (middleware_route_protection "/other"
      (some ⟨"u1", "USER"⟩)).2 (by decide) (by decide) (by decide)

end Periwinkle
